import Mathlib

/-!
Verification development for the hyperd computational-graph orchestrator and the
hyper-graph neural network index (`src/ext/hyperd/hyperd.js`, `src/ext/hyperd/hgnn.js`).

The JavaScript `Map` objects are modelled as insertion-ordered association lists
(`Map.set` replaces in place for an existing key and appends otherwise; `Map.get`
returns the first binding).  Mutable class state is threaded explicitly.
Numbers appearing in the attention arithmetic are modelled as real numbers;
`Math.exp` and `Math.sqrt` are `Real.exp` and `Real.sqrt`.
-/

namespace Wds

/-- First binding of key `k` in an association list (JavaScript `Map.get`). -/
def mapGet (m : List (String × α)) (k : String) : Option α :=
  (m.find? (fun p => p.1 = k)).map (·.2)

/-- JavaScript `Map.set`: replace in place when the key exists, append otherwise. -/
def mapSet (m : List (String × α)) (k : String) (v : α) : List (String × α) :=
  if m.any (fun p => p.1 = k) then
    m.map (fun p => if p.1 = k then (k, v) else p)
  else
    m ++ [(k, v)]

/-- JavaScript `Map.has`. -/
def hasKey (m : List (String × α)) (k : String) : Bool :=
  (mapGet m k).isSome

/-- Position of the first occurrence of `a` in a list (length of the list if absent). -/
def posOf : List String → String → Nat
  | [], _ => 0
  | x :: xs, a => if x = a then 0 else posOf xs a + 1

theorem posOf_lt_length : ∀ {l : List String} {a : String}, a ∈ l → posOf l a < l.length
  | x :: xs, a, h => by
    by_cases hx : x = a
    · simp [posOf, hx]
    · have h' : a ∈ xs := by
        rcases List.mem_cons.mp h with h | h
        · exact absurd h.symm hx
        · exact h
      simpa [posOf, hx] using posOf_lt_length h'

theorem posOf_append_left : ∀ {l₁ : List String} (l₂ : List String) {a : String},
    a ∈ l₁ → posOf (l₁ ++ l₂) a = posOf l₁ a
  | x :: xs, l₂, a, h => by
    by_cases hx : x = a
    · simp [posOf, hx]
    · have h' : a ∈ xs := by
        rcases List.mem_cons.mp h with h | h
        · exact absurd h.symm hx
        · exact h
      simp [posOf, hx, posOf_append_left l₂ h']

theorem posOf_append_right_self {l : List String} {a : String} (h : a ∉ l) :
    posOf (l ++ [a]) a = l.length := by
  induction l with
  | nil => simp [posOf]
  | cons x xs ih =>
    have hx : x ≠ a := fun hc => h (hc ▸ List.mem_cons_self x xs)
    have hxs : a ∉ xs := fun hc => h (List.mem_cons_of_mem x hc)
    simp [posOf, hx, ih hxs]

/-! ## Task graph (`hyperd.js`, `ComputationalNode` / `ComputationalGraph`) -/

/-- Result values flowing through the computational graph.  `undef` is the
JavaScript `undefined` obtained from `results.get` on a missing key; `errObj m`
is the `{ error: m }` object stored by the catch block. -/
inductive Value where
  | undef : Value
  | str : String → Value
  | num : Nat → Value
  | errObj : String → Value
deriving DecidableEq, Repr

/-- A `ComputationalNode`'s immutable construction data (`id`, `system`,
`operation`, `inputs`); `outputs` is the connection list grown by `addNode`.
The mutable `status`/`result` pair lives in `NodeDyn` during execution. -/
structure CNode where
  id : String
  system : String
  operation : String
  inputs : List String
  outputs : List String
deriving DecidableEq, Repr

/-- A registered system handle: maps a method name to its implementation, which
receives the colon-split string arguments and the gathered input results.  A
`none` method models `typeof system[method] !== 'function'`; an implementation
returning `.error` models a throwing / rejecting operation. -/
def SysHandle : Type :=
  String → Option (List String → List Value → Except String Value)

/-- The `ComputationalGraph` state: node map, registered systems, and the
memoized `#executionOrder` (empty until `buildExecutionOrder` runs). -/
structure Graph where
  nodes : List (String × CNode)
  systems : List (String × SysHandle)
  executionOrder : List String

/-- A freshly constructed `ComputationalGraph`. -/
def emptyGraph : Graph :=
  { nodes := [], systems := [], executionOrder := [] }

/-- `ComputationalGraph.registerSystem`. -/
def registerSystem (g : Graph) (name : String) (inst : SysHandle) : Graph :=
  { g with systems := mapSet g.systems name inst }

/-- `ComputationalGraph.addNode`: insert the node, then push this id onto the
`outputs` of every already-present input node.  No validation of `inputs`. -/
def addNode (g : Graph) (id system operation : String) (inputs : List String) : Graph :=
  let node : CNode := { id, system, operation, inputs, outputs := [] }
  let nodes₁ := mapSet g.nodes id node
  let nodes₂ := inputs.foldl (fun ns inputId =>
    match mapGet ns inputId with
    | some nd => mapSet ns inputId { nd with outputs := nd.outputs ++ [id] }
    | none => ns) nodes₁
  { g with nodes := nodes₂ }

/-- Errors thrown by the graph engine.  `outOfFuel` is the bookkeeping signal of
the fueled model of the recursive `visit` closure; it is proved unreachable at
the fuel `buildExecutionOrder` supplies. -/
inductive JsError where
  | cycle : String → JsError
  | systemNotRegistered : String → JsError
  | methodNotFound : String → JsError
  | opFailed : String → JsError
  | outOfFuel : JsError
deriving DecidableEq, Repr

/-- The `error.message` string of each modelled throw site. -/
def errMessage : JsError → String
  | .cycle id => "Cycle detected in computational graph at node: " ++ id
  | .systemNotRegistered s => "System not registered: " ++ s
  | .methodNotFound m => "Method not found: " ++ m ++ " in system"
  | .opFailed m => m
  | .outOfFuel => "out of fuel"

/-- DFS state of `buildExecutionOrder`: the `visited` set (as the list of
visited ids, most recent first) and the `order` array. -/
abbrev DfsState := List String × List String

/-- Input list of a node id, empty when the id is not in the map (the source's
`visit` skips recursion when `this.#nodes.get(nodeId)` is `undefined`). -/
def inputsOf (nodes : List (String × CNode)) (nodeId : String) : List String :=
  match mapGet nodes nodeId with
  | some nd => nd.inputs
  | none => []

/-- Run `visit` over a list of input ids, threading the DFS state. -/
def visitMany (visit : String → DfsState → Except JsError DfsState) :
    List String → DfsState → Except JsError DfsState
  | [], st => .ok st
  | i :: is, st =>
    match visit i st with
    | .error e => .error e
    | .ok st₁ => visitMany visit is st₁

/-- One level of the recursive `visit` closure: throw on a temporary mark,
return early when visited, otherwise recurse into the inputs with this node
temporarily marked, then mark visited and push onto the order. -/
def visitStep (nodes : List (String × CNode))
    (next : List String → String → DfsState → Except JsError DfsState)
    (temp : List String) (nodeId : String) (st : DfsState) : Except JsError DfsState :=
  if nodeId ∈ temp then .error (.cycle nodeId)
  else if nodeId ∈ st.1 then .ok st
  else
    match visitMany (next (nodeId :: temp)) (inputsOf nodes nodeId) st with
    | .error e => .error e
    | .ok st₁ => .ok (nodeId :: st₁.1, st₁.2 ++ [nodeId])

/-- The fueled `visit` closure of `buildExecutionOrder`.  The fuel bounds the
recursion depth, which the source bounds by the number of map keys (only ids
present in the map recurse further). -/
def visitFn (nodes : List (String × CNode)) :
    Nat → List String → String → DfsState → Except JsError DfsState
  | 0 => fun _ _ _ => .error .outOfFuel
  | fuel + 1 => visitStep nodes (visitFn nodes fuel)

/-- The main loop of `buildExecutionOrder`: visit every unvisited map key in
insertion order. -/
def visitKeys (nodes : List (String × CNode)) (fuel : Nat) :
    List String → DfsState → Except JsError DfsState
  | [], st => .ok st
  | k :: ks, st =>
    match (if k ∈ st.1 then .ok st else visitFn nodes fuel [] k st) with
    | .error e => .error e
    | .ok st₁ => visitKeys nodes fuel ks st₁

/-- `ComputationalGraph.buildExecutionOrder`: DFS topological sort with a
temporary-mark set for cycle detection, returning the order. -/
def buildExecutionOrder (g : Graph) : Except JsError (List String) :=
  match visitKeys g.nodes (g.nodes.length + 2) (g.nodes.map (·.1)) ([], []) with
  | .error e => .error e
  | .ok st => .ok st.2

/-- The mutable per-node execution state (`#status`, `#result`). -/
structure NodeDyn where
  status : String
  result : Option Value
deriving DecidableEq, Repr

/-- `ComputationalNode.setStatus`. -/
def setStatus (dyn : List (String × NodeDyn)) (id status : String) :
    List (String × NodeDyn) :=
  match mapGet dyn id with
  | some d => mapSet dyn id { d with status }
  | none => dyn

/-- `ComputationalNode.setResult`: stores the result and sets the status to
`completed` (also when called from the catch block right after
`setStatus('failed')`). -/
def setResultDyn (dyn : List (String × NodeDyn)) (id : String) (v : Value) :
    List (String × NodeDyn) :=
  match mapGet dyn id with
  | some d => mapSet dyn id { d with result := some v, status := "completed" }
  | none => dyn

/-- Observable outcome of `ComputationalGraph.execute`: the final per-node
dynamic state, the local `results` map at the moment execution stopped, the log
of dispatched operation calls (node id with the input results passed), the
thrown error if any, and the value actually returned to the caller (`none` when
the error propagates, in which case the results map is not handed back). -/
structure ExecOutcome where
  dyn : List (String × NodeDyn)
  results : List (String × Value)
  dispatched : List (String × List Value)
  thrown : Option JsError
  returned : Option (List (String × Value))
deriving Repr

/-- Split a character list at `:` separators, accumulating the current segment
in reverse. -/
def splitChars : List Char → List Char → List String
  | [], acc => [String.mk acc.reverse]
  | c :: cs, acc =>
    if c = ':' then String.mk acc.reverse :: splitChars cs []
    else splitChars cs (c :: acc)

/-- The JavaScript `operation.split(':')` (single-character separator): always
returns a non-empty list; an input without `:` yields a singleton. -/
def splitOnColon (s : String) : List String :=
  splitChars s.data []

/-- The catch block of `execute`: `setStatus('failed')` followed by
`setResult({ error: message })` (which overwrites the status to `completed`),
then the error is rethrown, aborting the loop without returning the results. -/
def execFail (dyn : List (String × NodeDyn)) (results : List (String × Value))
    (dispatched : List (String × List Value)) (nodeId : String) (e : JsError) :
    ExecOutcome :=
  { dyn := setResultDyn (setStatus dyn nodeId "failed") nodeId (.errObj (errMessage e))
    results
    dispatched
    thrown := some e
    returned := none }

/-- `ComputationalGraph.#executeOperation` combined with the loop body of
`execute`: split the operation on `:`, look the method up on the system handle,
and invoke it with the string arguments and the gathered input results. -/
def execLoop (g : Graph) : List String → List (String × NodeDyn) →
    List (String × Value) → List (String × List Value) → ExecOutcome
  | [], dyn, results, dispatched =>
    { dyn, results, dispatched, thrown := none, returned := some results }
  | nodeId :: rest, dyn, results, dispatched =>
    match mapGet g.nodes nodeId with
    | none => execLoop g rest dyn results dispatched
    | some node =>
      let dyn₁ := setStatus dyn nodeId "running"
      let inputResults := node.inputs.map (fun i => (mapGet results i).getD .undef)
      match mapGet g.systems node.system with
      | none => execFail dyn₁ results dispatched nodeId (.systemNotRegistered node.system)
      | some sys =>
        let parts := splitOnColon node.operation
        let method := parts.headD ""
        let args := parts.tail
        match sys method with
        | none => execFail dyn₁ results dispatched nodeId (.methodNotFound method)
        | some impl =>
          let dispatched₁ := dispatched ++ [(nodeId, inputResults)]
          match impl args inputResults with
          | .error msg => execFail dyn₁ results dispatched₁ nodeId (.opFailed msg)
          | .ok v =>
            execLoop g rest (setResultDyn dyn₁ nodeId v)
              (mapSet results nodeId v) dispatched₁

/-- Initial dynamic state: every constructed node is `pending` with no result. -/
def initDyn (g : Graph) : List (String × NodeDyn) :=
  g.nodes.map (fun p => (p.1, { status := "pending", result := none }))

/-- `ComputationalGraph.execute`: build the order first (when not memoized),
then run the nodes in that order; a build failure propagates before any node is
processed. -/
def execute (g : Graph) : ExecOutcome :=
  match (if g.executionOrder.isEmpty then buildExecutionOrder g else .ok g.executionOrder) with
  | .error e =>
    { dyn := initDyn g, results := [], dispatched := [], thrown := some e, returned := none }
  | .ok order => execLoop g order (initDyn g) [] []

/-! ## Soundness of the DFS topological sort -/

/-- Lists that are built by appending each id only after all inputs of its node
(when the id is in the map) are already present.  This is the shape in which
`buildExecutionOrder` grows its `order` array. -/
inductive TopoOrder (nodes : List (String × CNode)) : List String → Prop where
  | nil : TopoOrder nodes []
  | snoc (o : List String) (id : String) :
      TopoOrder nodes o →
      (∀ nd, mapGet nodes id = some nd → ∀ i ∈ nd.inputs, i ∈ o) →
      TopoOrder nodes (o ++ [id])

/-- DFS state invariant: the visited list mirrors the order array (reversed),
the order has no duplicates, and it is input-closed in the `TopoOrder` sense. -/
def Inv (nodes : List (String × CNode)) (st : DfsState) : Prop :=
  st.1 = st.2.reverse ∧ st.2.Nodup ∧ TopoOrder nodes st.2

/-- Common postcondition of one or more successful `visit` calls under the
temporary-mark set `temp`: the invariant holds, the order only grows, and every
newly pushed id is not temporarily marked. -/
def VisitPost (nodes : List (String × CNode)) (temp : List String)
    (st st' : DfsState) : Prop :=
  Inv nodes st' ∧ (∀ x ∈ st.2, x ∈ st'.2) ∧ (∀ x ∈ st'.2, x ∈ st.2 ∨ x ∉ temp)

theorem VisitPost.rfl {nodes temp st} (h : Inv nodes st) : VisitPost nodes temp st st :=
  ⟨h, fun _ hx => hx, fun _ hx => .inl hx⟩

theorem VisitPost.comp {nodes temp st st₁ st₂} (h₁ : VisitPost nodes temp st st₁)
    (h₂ : VisitPost nodes temp st₁ st₂) : VisitPost nodes temp st st₂ := by
  refine ⟨h₂.1, fun x hx => h₂.2.1 x (h₁.2.1 x hx), fun x hx => ?_⟩
  rcases h₂.2.2 x hx with hx₁ | hx₁
  · exact h₁.2.2 x hx₁
  · exact .inr hx₁

theorem visitMany_sound {nodes : List (String × CNode)} {temp : List String}
    (visit : String → DfsState → Except JsError DfsState)
    (hv : ∀ i st st', visit i st = .ok st' → Inv nodes st →
      VisitPost nodes temp st st' ∧ i ∈ st'.2) :
    ∀ ids st st', visitMany visit ids st = .ok st' → Inv nodes st →
      VisitPost nodes temp st st' ∧ ∀ i ∈ ids, i ∈ st'.2 := by
  intro ids
  induction ids with
  | nil =>
    intro st st' h hinv
    cases h
    exact ⟨VisitPost.rfl hinv, by simp⟩
  | cons i is ih =>
    intro st st' h hinv
    simp only [visitMany] at h
    cases hv₁ : visit i st with
    | error e => rw [hv₁] at h; cases h
    | ok st₁ =>
      rw [hv₁] at h
      obtain ⟨hp₁, hi₁⟩ := hv i st st₁ hv₁ hinv
      obtain ⟨hp₂, hmem₂⟩ := ih st₁ st' h hp₁.1
      refine ⟨hp₁.comp hp₂, fun j hj => ?_⟩
      rcases List.mem_cons.mp hj with hj | hj
      · exact hj ▸ hp₂.2.1 i hi₁
      · exact hmem₂ j hj

theorem mapGet_some_mem_keys {m : List (String × α)} {k : String} {v : α}
    (h : mapGet m k = some v) : k ∈ m.map (·.1) := by
  unfold mapGet at h
  cases hf : m.find? (fun p => p.1 = k) with
  | none => rw [hf] at h; cases h
  | some p =>
    have hp := List.find?_some hf
    have hmem := List.mem_of_find?_eq_some hf
    have hk : p.1 = k := by simpa using hp
    exact hk ▸ List.mem_map_of_mem (·.1) hmem

theorem mapGet_eq_none_of_not_mem_keys {m : List (String × α)} {k : String}
    (h : k ∉ m.map (·.1)) : mapGet m k = none := by
  unfold mapGet
  rw [List.find?_eq_none.mpr]
  · rfl
  · intro p hp hpk
    have hk : p.1 = k := by simpa using hpk
    exact h (hk ▸ List.mem_map_of_mem (·.1) hp)

theorem visitFn_sound (nodes : List (String × CNode)) :
    ∀ fuel temp id st st', visitFn nodes fuel temp id st = .ok st' →
      Inv nodes st → VisitPost nodes temp st st' ∧ id ∈ st'.2 := by
  intro fuel
  induction fuel with
  | zero => intro temp id st st' h; cases h
  | succ fuel ih =>
    intro temp id st st' h hinv
    simp only [visitFn, visitStep] at h
    by_cases htemp : id ∈ temp
    · rw [if_pos htemp] at h; cases h
    · rw [if_neg htemp] at h
      by_cases hvis : id ∈ st.1
      · rw [if_pos hvis] at h
        cases h
        refine ⟨VisitPost.rfl hinv, ?_⟩
        rw [hinv.1] at hvis
        exact List.mem_reverse.mp hvis
      · rw [if_neg hvis] at h
        cases hm : visitMany (visitFn nodes fuel (id :: temp)) (inputsOf nodes id) st with
        | error e => rw [hm] at h; cases h
        | ok st₁ =>
          rw [hm] at h
          cases h
          obtain ⟨hp₁, hins⟩ := @visitMany_sound nodes (id :: temp)
            (visitFn nodes fuel (id :: temp))
            (fun i st st' hok hi => ih (id :: temp) i st st' hok hi)
            (inputsOf nodes id) st st₁ hm hinv
          have hidnot : id ∉ st₁.2 := by
            intro hc
            rcases hp₁.2.2 id hc with hc₁ | hc₁
            · exact hvis (by rw [hinv.1]; exact List.mem_reverse.mpr hc₁)
            · exact hc₁ (List.mem_cons_self id temp)
          have hinv' : Inv nodes (id :: st₁.1, st₁.2 ++ [id]) := by
            refine ⟨?_, ?_, ?_⟩
            · simp [hp₁.1.1]
            · simpa [List.nodup_append] using ⟨hp₁.1.2.1, hidnot⟩
            · refine TopoOrder.snoc st₁.2 id hp₁.1.2.2 ?_
              intro nd hnd i hi
              have : inputsOf nodes id = nd.inputs := by simp [inputsOf, hnd]
              exact hins i (this ▸ hi)
          refine ⟨⟨hinv', ?_, ?_⟩, by simp⟩
          · intro x hx
            exact List.mem_append.mpr (.inl (hp₁.2.1 x hx))
          · intro x hx
            rcases List.mem_append.mp hx with hx₁ | hx₁
            · rcases hp₁.2.2 x hx₁ with hx₂ | hx₂
              · exact .inl hx₂
              · exact .inr fun hc => hx₂ (List.mem_cons_of_mem id hc)
            · have hxid : x = id := by simpa using hx₁
              exact .inr (hxid ▸ htemp)

theorem visitKeys_sound (nodes : List (String × CNode)) (fuel : Nat) :
    ∀ keys st st', visitKeys nodes fuel keys st = .ok st' → Inv nodes st →
      Inv nodes st' ∧ (∀ x ∈ st.2, x ∈ st'.2) ∧ ∀ k ∈ keys, k ∈ st'.2 := by
  intro keys
  induction keys with
  | nil =>
    intro st st' h hinv
    cases h
    exact ⟨hinv, fun _ hx => hx, by simp⟩
  | cons k ks ih =>
    intro st st' h hinv
    simp only [visitKeys] at h
    by_cases hk : k ∈ st.1
    · rw [if_pos hk] at h
      obtain ⟨hinv', hmono, hkeys⟩ := ih st st' h hinv
      refine ⟨hinv', hmono, fun j hj => ?_⟩
      rcases List.mem_cons.mp hj with hj | hj
      · refine hj ▸ hmono k ?_
        rw [hinv.1] at hk
        exact List.mem_reverse.mp hk
      · exact hkeys j hj
    · rw [if_neg hk] at h
      cases hv : visitFn nodes fuel [] k st with
      | error e => rw [hv] at h; cases h
      | ok st₁ =>
        rw [hv] at h
        obtain ⟨hp₁, hk₁⟩ := visitFn_sound nodes fuel [] k st st₁ hv hinv
        obtain ⟨hinv', hmono, hkeys⟩ := ih st₁ st' h hp₁.1
        refine ⟨hinv', fun x hx => hmono x (hp₁.2.1 x hx), fun j hj => ?_⟩
        rcases List.mem_cons.mp hj with hj | hj
        · exact hj ▸ hmono k hk₁
        · exact hkeys j hj

theorem buildExecutionOrder_ok_spec {g : Graph} {order : List String}
    (h : buildExecutionOrder g = .ok order) :
    order.Nodup ∧ TopoOrder g.nodes order ∧ ∀ k ∈ g.nodes.map (·.1), k ∈ order := by
  unfold buildExecutionOrder at h
  cases hv : visitKeys g.nodes (g.nodes.length + 2) (g.nodes.map (·.1)) ([], []) with
  | error e => rw [hv] at h; cases h
  | ok st =>
    rw [hv] at h
    cases h
    have hinv0 : Inv g.nodes (([] : List String), ([] : List String)) :=
      ⟨by simp, List.nodup_nil, TopoOrder.nil⟩
    obtain ⟨hinv, _, hkeys⟩ := visitKeys_sound g.nodes (g.nodes.length + 2)
      (g.nodes.map (·.1)) ([], []) st hv hinv0
    exact ⟨hinv.2.1, hinv.2.2, hkeys⟩

theorem TopoOrder.pos_lt {nodes : List (String × CNode)} {o : List String}
    (ht : TopoOrder nodes o) (hnd : o.Nodup) :
    ∀ id ∈ o, ∀ nd, mapGet nodes id = some nd → ∀ i ∈ nd.inputs,
      i ∈ o ∧ posOf o i < posOf o id := by
  induction ht with
  | nil => intro id hid; cases hid
  | snoc o x hto hx ih =>
    have hsplit : o.Nodup ∧ x ∉ o := by
      rw [List.nodup_append] at hnd
      exact ⟨hnd.1, fun hc => hnd.2.2 hc (List.mem_singleton_self x)⟩
    intro id hid nd hget i hi
    rcases List.mem_append.mp hid with hid₁ | hid₁
    · obtain ⟨hio, hpos⟩ := ih hsplit.1 id hid₁ nd hget i hi
      refine ⟨List.mem_append.mpr (.inl hio), ?_⟩
      rw [posOf_append_left [x] hio, posOf_append_left [x] hid₁]
      exact hpos
    · have hidx : id = x := by simpa using hid₁
      subst hidx
      have hio : i ∈ o := hx nd hget i hi
      refine ⟨List.mem_append.mpr (.inl hio), ?_⟩
      rw [posOf_append_left [id] hio, posOf_append_right_self hsplit.2]
      exact posOf_lt_length hio

/-- C1 core: on success, each graph node appears in the order and strictly
after every id in its input list. -/
theorem build_order_topological {g : Graph} {order : List String}
    (hb : buildExecutionOrder g = .ok order)
    {id : String} {nd : CNode} (hid : mapGet g.nodes id = some nd)
    {inp : String} (hinp : inp ∈ nd.inputs) :
    id ∈ order ∧ inp ∈ order ∧ posOf order inp < posOf order id := by
  obtain ⟨hnodup, htopo, hkeys⟩ := buildExecutionOrder_ok_spec hb
  have hido : id ∈ order := hkeys id (mapGet_some_mem_keys hid)
  obtain ⟨hio, hpos⟩ := htopo.pos_lt hnodup id hido nd hid inp hinp
  exact ⟨hido, hio, hpos⟩

/-! ## Fuel sufficiency: the fueled DFS never exhausts at the supplied fuel -/

/-- Number of map keys not yet temporarily marked: an upper bound on the
remaining DFS recursion depth. -/
def countFree (nodes : List (String × CNode)) (temp : List String) : Nat :=
  ((nodes.map (·.1)).filter (fun k => k ∉ temp)).length

theorem filter_notmem_cons_length {l : List String} {a : String} {t : List String}
    (ha : a ∈ l) (hat : a ∉ t) :
    (l.filter (fun k => k ∉ (a :: t))).length + 1 ≤ (l.filter (fun k => k ∉ t)).length := by
  induction l with
  | nil => cases ha
  | cons x xs ih =>
    by_cases hxa : x = a
    · subst hxa
      have hlen : (xs.filter (fun k => k ∉ (x :: t))).length ≤
          (xs.filter (fun k => k ∉ t)).length := by
        refine List.Sublist.length_le (List.monotone_filter_right xs ?_)
        intro b hb
        simp only [decide_eq_true_eq] at hb ⊢
        exact fun hc => hb (List.mem_cons_of_mem x hc)
      simp only [List.filter_cons]
      have h1 : (decide (x ∉ (x :: t))) = false := by simp
      have h2 : (decide (x ∉ t)) = true := by simpa using hat
      rw [h1, h2]
      simpa using Nat.add_le_add_right hlen 1
    · have ha' : a ∈ xs := by
        rcases List.mem_cons.mp ha with h | h
        · exact absurd h.symm hxa
        · exact h
      have hiff : (decide (x ∉ (a :: t))) = (decide (x ∉ t)) :=
        decide_eq_decide.mpr (by simp [List.mem_cons, hxa])
      simp only [List.filter_cons, hiff]
      cases hxt : (decide (x ∉ t)) with
      | false => simpa using ih ha'
      | true => simpa [Nat.succ_le_succ_iff] using ih ha'

theorem visitMany_err {visit : String → DfsState → Except JsError DfsState}
    (hv : ∀ i st e, visit i st = .error e → ∃ cid, e = .cycle cid) :
    ∀ ids st e, visitMany visit ids st = .error e → ∃ cid, e = .cycle cid := by
  intro ids
  induction ids with
  | nil => intro st e h; cases h
  | cons i is ih =>
    intro st e h
    simp only [visitMany] at h
    cases hv₁ : visit i st with
    | error e₁ =>
      rw [hv₁] at h
      cases h
      exact hv i st e hv₁
    | ok st₁ =>
      rw [hv₁] at h
      exact ih st₁ e h

theorem visitFn_err (nodes : List (String × CNode)) :
    ∀ fuel temp id st e, countFree nodes temp + 2 ≤ fuel →
      visitFn nodes fuel temp id st = .error e → ∃ cid, e = .cycle cid := by
  intro fuel
  induction fuel with
  | zero => intro temp id st e hle; omega
  | succ fuel ih =>
    intro temp id st e hle h
    simp only [visitFn, visitStep] at h
    by_cases htemp : id ∈ temp
    · rw [if_pos htemp] at h
      cases h
      exact ⟨id, rfl⟩
    · rw [if_neg htemp] at h
      by_cases hvis : id ∈ st.1
      · rw [if_pos hvis] at h; cases h
      · rw [if_neg hvis] at h
        by_cases hkey : id ∈ nodes.map (·.1)
        · have hcount : countFree nodes (id :: temp) + 2 ≤ fuel := by
            have := filter_notmem_cons_length hkey htemp
            unfold countFree at *
            omega
          cases hm : visitMany (visitFn nodes fuel (id :: temp)) (inputsOf nodes id) st with
          | error e₁ =>
            rw [hm] at h
            cases h
            exact visitMany_err (fun i st e₂ he => ih (id :: temp) i st e₂ hcount he)
              (inputsOf nodes id) st e hm
          | ok st₁ => rw [hm] at h; cases h
        · have hnone : inputsOf nodes id = [] := by
            simp [inputsOf, mapGet_eq_none_of_not_mem_keys hkey]
          rw [hnone] at h
          simp only [visitMany] at h
          cases h

theorem buildExecutionOrder_err {g : Graph} {e : JsError}
    (h : buildExecutionOrder g = .error e) : ∃ cid, e = .cycle cid := by
  unfold buildExecutionOrder at h
  have hcount : countFree g.nodes [] + 2 ≤ g.nodes.length + 2 := by
    have h1 : ((g.nodes.map (·.1)).filter (fun k => k ∉ ([] : List String))).length ≤
        (g.nodes.map (·.1)).length := List.length_filter_le _ _
    unfold countFree
    simp only [List.length_map] at h1
    omega
  suffices hgen : ∀ keys st e, visitKeys g.nodes (g.nodes.length + 2) keys st = .error e →
      ∃ cid, e = .cycle cid by
    cases hv : visitKeys g.nodes (g.nodes.length + 2) (g.nodes.map (·.1)) ([], []) with
    | error e₁ =>
      rw [hv] at h
      cases h
      exact hgen _ _ _ hv
    | ok st => rw [hv] at h; cases h
  intro keys
  induction keys with
  | nil => intro st e₁ h₁; cases h₁
  | cons k ks ih =>
    intro st e₁ h₁
    simp only [visitKeys] at h₁
    by_cases hk : k ∈ st.1
    · rw [if_pos hk] at h₁
      exact ih st e₁ h₁
    · rw [if_neg hk] at h₁
      cases hv : visitFn g.nodes (g.nodes.length + 2) [] k st with
      | error e₂ =>
        rw [hv] at h₁
        cases h₁
        exact visitFn_err g.nodes (g.nodes.length + 2) [] k st e₁ hcount hv
      | ok st₁ =>
        rw [hv] at h₁
        exact ih st₁ e₁ h₁

/-- One dependency edge of the task graph: `a`'s node lists `b` among its inputs. -/
def edgeStep (nodes : List (String × CNode)) (a b : String) : Prop :=
  ∃ nd, mapGet nodes a = some nd ∧ b ∈ nd.inputs

theorem transGen_posOf {g : Graph} {order : List String}
    (hb : buildExecutionOrder g = .ok order) :
    ∀ a b, Relation.TransGen (edgeStep g.nodes) a b →
      posOf order b < posOf order a := by
  intro a b h
  induction h with
  | single hstep =>
    obtain ⟨nd, hnd, hmem⟩ := hstep
    exact (build_order_topological hb hnd hmem).2.2
  | tail _ hstep ih =>
    obtain ⟨nd, hnd, hmem⟩ := hstep
    exact Nat.lt_trans (build_order_topological hb hnd hmem).2.2 ih

/-! ## Concrete graphs used by the witnesses and counterexamples -/

/-- A one-method system handle whose `op` operation succeeds. -/
def sysW : SysHandle := fun m =>
  if m = "op" then some (fun _ _ => .ok (.str "r")) else none

/-- Spec scenario 1: independent nodes `A`, `B` and a node `C` with inputs
`[A, B]`, built via `addNode`. -/
def graphABC : Graph :=
  addNode (addNode (addNode (registerSystem emptyGraph "s" sysW)
    "A" "s" "op" []) "B" "s" "op" []) "C" "s" "op" ["A", "B"]

/-- The node stored for `C` in `graphABC`. -/
def nodeC : CNode :=
  { id := "C", system := "s", operation := "op", inputs := ["A", "B"], outputs := [] }

/-- A two-node cyclic graph: `X` has input `Y` and `Y` has input `X`. -/
def gCyc : Graph :=
  addNode (addNode (registerSystem emptyGraph "s" sysW)
    "X" "s" "op" ["Y"]) "Y" "s" "op" ["X"]

theorem gCyc_transGen : Relation.TransGen (edgeStep gCyc.nodes) "X" "X" := by
  have h1 : edgeStep gCyc.nodes "X" "Y" :=
    ⟨{ id := "X", system := "s", operation := "op", inputs := ["Y"], outputs := ["Y"] }, rfl, by decide⟩
  have h2 : edgeStep gCyc.nodes "Y" "X" :=
    ⟨{ id := "Y", system := "s", operation := "op", inputs := ["X"], outputs := [] }, rfl, by decide⟩
  exact Relation.TransGen.tail (Relation.TransGen.single h1) h2

/-- A system whose `ok` method succeeds and whose `boom` method rejects. -/
def sysFail : SysHandle := fun m =>
  if m = "ok" then some (fun _ _ => .ok (.str "r1"))
  else if m = "boom" then some (fun _ _ => .error "boom failed")
  else none

/-- Two-node graph in which `n2` (depending on `n1`) dispatches a rejecting
operation. -/
def gFail : Graph :=
  addNode (addNode (registerSystem emptyGraph "s" sysFail)
    "n1" "s" "ok" []) "n2" "s" "boom" ["n1"]

/-- A graph whose single node `b` declares input `a`, never added. -/
def gMissing : Graph :=
  addNode (registerSystem emptyGraph "s" sysW) "b" "s" "op" ["a"]

/-! ## Claims C1, C2, C3, C8 -/

/-- C1: for every task graph on which `buildExecutionOrder` succeeds, no node is
placed before any of its declared inputs: every node of the graph appears in
the returned order, and each of its input ids appears at a strictly earlier
position. -/
theorem claim_C1_topological_order (g : Graph) (order : List String)
    (hb : buildExecutionOrder g = .ok order)
    (id : String) (nd : CNode) (hid : mapGet g.nodes id = some nd)
    (inp : String) (hinp : inp ∈ nd.inputs) :
    id ∈ order ∧ inp ∈ order ∧ posOf order inp < posOf order id :=
  build_order_topological hb hid hinp

theorem claim_C1_witness :
    (buildExecutionOrder graphABC = .ok ["A", "B", "C"] ∧
      mapGet graphABC.nodes "C" = some nodeC ∧ "A" ∈ nodeC.inputs) ∧
    ("C" ∈ ["A", "B", "C"] ∧ "A" ∈ ["A", "B", "C"] ∧
      posOf ["A", "B", "C"] "A" < posOf ["A", "B", "C"] "C") :=
  ⟨⟨rfl, rfl, by decide⟩,
    claim_C1_topological_order graphABC ["A", "B", "C"] rfl "C" nodeC rfl "A" (by decide)⟩

/-- C2: whenever some node is reachable from itself through input edges, the
(un-memoized) graph fails: `buildExecutionOrder` returns the cycle error naming
the node at which the temporary mark was revisited, and `execute` throws the
same error with no operation dispatched. -/
theorem claim_C2_cycle_detected (g : Graph) (n : String)
    (hfresh : g.executionOrder = [])
    (hcyc : Relation.TransGen (edgeStep g.nodes) n n) :
    (∃ id, buildExecutionOrder g = .error (.cycle id)) ∧
    (execute g).dispatched = [] ∧ ∃ id, (execute g).thrown = some (.cycle id) := by
  cases hb : buildExecutionOrder g with
  | ok order => exact absurd (transGen_posOf hb n n hcyc) (lt_irrefl _)
  | error e =>
    obtain ⟨cid, rfl⟩ := buildExecutionOrder_err hb
    have hexec : execute g = { dyn := initDyn g, results := [], dispatched := [], thrown := some (.cycle cid), returned := none } := by
      unfold execute
      rw [hfresh]
      simp [hb]
    exact ⟨⟨cid, rfl⟩, by rw [hexec], ⟨cid, by rw [hexec]⟩⟩

theorem claim_C2_witness :
    (gCyc.executionOrder = [] ∧ Relation.TransGen (edgeStep gCyc.nodes) "X" "X") ∧
    ((∃ id, buildExecutionOrder gCyc = .error (.cycle id)) ∧
      (execute gCyc).dispatched = [] ∧ ∃ id, (execute gCyc).thrown = some (.cycle id)) :=
  ⟨⟨rfl, gCyc_transGen⟩, claim_C2_cycle_detected gCyc "X" rfl gCyc_transGen⟩

/-- C3 (code bug): when a dispatched operation rejects, `execute` does stop
processing and rethrows the error, but the failing node's final status is
`completed`, not `failed` (`setResult` inside the catch block overwrites the
status set by `setStatus('failed')`), and the partial result map is not
returned with the error (`returned = none`); the completed results survive only
in the local map / node states. -/
theorem claim_C3_failure_evaluation :
    (execute gFail).thrown = some (.opFailed "boom failed") ∧
    (execute gFail).returned = none ∧
    mapGet (execute gFail).dyn "n2" = some { status := "completed", result := some (.errObj "boom failed") } ∧
    (execute gFail).results = [("n1", .str "r1")] ∧
    (execute gFail).dispatched = [("n1", []), ("n2", [.str "r1"])] :=
  ⟨rfl, rfl, rfl, rfl, rfl⟩

theorem claim_C8_counterexample :
    buildExecutionOrder gMissing = .ok ["a", "b"] ∧
    (execute gMissing).thrown = none ∧
    ("b", [Value.undef]) ∈ (execute gMissing).dispatched :=
  ⟨rfl, rfl, by decide⟩

/-- C8 amended: a node referencing an input id absent from the graph raises no
error at all: `addNode` performs no validation, `buildExecutionOrder` succeeds
and places even the missing id into the order (before its dependent), and
`execute` skips the missing id and dispatches the dependent node with
`undefined` standing in for the missing input result. -/
theorem claim_C8_missing_inputs_tolerated (g : Graph) (order : List String)
    (hb : buildExecutionOrder g = .ok order)
    (id : String) (nd : CNode) (hid : mapGet g.nodes id = some nd)
    (inp : String) (hinp : inp ∈ nd.inputs) :
    inp ∈ order ∧
    (buildExecutionOrder gMissing = .ok ["a", "b"] ∧
      (execute gMissing).thrown = none ∧
      (execute gMissing).dispatched = [("b", [Value.undef])]) :=
  ⟨(build_order_topological hb hid hinp).2.1, rfl, rfl, rfl⟩

theorem claim_C8_witness :
    (buildExecutionOrder gMissing = .ok ["a", "b"] ∧
      mapGet gMissing.nodes "b" = some { id := "b", system := "s", operation := "op", inputs := ["a"], outputs := [] } ∧
      "a" ∈ (["a"] : List String)) ∧
    ("a" ∈ ["a", "b"] ∧
      (buildExecutionOrder gMissing = .ok ["a", "b"] ∧
        (execute gMissing).thrown = none ∧
        (execute gMissing).dispatched = [("b", [Value.undef])])) :=
  ⟨⟨rfl, rfl, by decide⟩,
    claim_C8_missing_inputs_tolerated gMissing ["a", "b"] rfl "b" _ rfl "a" (by decide)⟩

/-! ## Hyper-graph neural network (`hgnn.js`) -/

/-- An embedding record: the stored `{ vector, dimension, system }` object.
`addNode` attaches the `system` key; aggregated `HyperGraphEmbedding` values
carry none. -/
structure EmbRec where
  vector : List ℝ
  dimension : Nat
  system : Option String

/-- `HyperGraphAttention` state: dimension, head count, and the per-head
projection matrices indexed `[head][i][j]`. -/
structure Attention where
  dimension : Nat
  numHeads : Nat
  attentionWeights : List (List (List ℝ))

/-- The `HyperGraphAttention` constructor: its only parameters are the
dimension and the head count; `#initializeWeights` draws every matrix entry
from the ambient random source (modelled as the stream `rand`, consumed in
head/row/column order) as `(r - 0.5) * 0.1`.  No externally supplied matrices
are accepted. -/
noncomputable def mkAttention (dimension numHeads : Nat) (rand : Nat → ℝ) : Attention :=
  { dimension := dimension, numHeads := numHeads,
    attentionWeights := (List.range numHeads).map fun head =>
      (List.range dimension).map fun i =>
        (List.range dimension).map fun j =>
          (rand ((head * dimension + i) * dimension + j) - 1/2) * (1/10) }

/-- `HyperGraphAttention.#transform`: multiply the `dimension × dimension`
matrix into the vector (entries read as 0 out of range, matching the vectors of
length `dimension` used at the call sites). -/
noncomputable def transform (dim : Nat) (W : List (List ℝ)) (v : List ℝ) : List ℝ :=
  (List.range dim).map fun i =>
    ((List.range dim).map fun j => ((W.getD i []).getD j 0) * v.getD j 0).sum

/-- `HyperGraphAttention.#dotProduct` (the two vectors always have equal length
`dimension` at the call sites). -/
noncomputable def dotProduct (a b : List ℝ) : ℝ :=
  (List.zipWith (· * ·) a b).sum

/-- `Math.max(...scores)` for the non-empty score lists fed to `#softmax`. -/
noncomputable def listMax : List ℝ → ℝ
  | [] => 0
  | x :: xs => xs.foldl max x

/-- `HyperGraphAttention.#softmax`: subtract the maximum, exponentiate,
normalize by the sum. -/
noncomputable def softmax (scores : List ℝ) : List ℝ :=
  let m := listMax scores
  let expScores := scores.map fun s => Real.exp (s - m)
  let sum := expScores.sum
  expScores.map fun s => s / sum

/-- The per-head body of `computeAttention`: project the query and each key
through the head's matrix, score by dot product scaled by `√dimension`, then
softmax the scores. -/
noncomputable def headScores (att : Attention) (queryEmb : EmbRec)
    (keyEmbs : List EmbRec) (head : Nat) : List ℝ :=
  let W := att.attentionWeights.getD head []
  let q := transform att.dimension W queryEmb.vector
  softmax (keyEmbs.map fun keyEmb =>
    dotProduct q (transform att.dimension W keyEmb.vector) / Real.sqrt (att.dimension : ℝ))

/-- `HyperGraphAttention.computeAttention`: run every head, then average the
per-neighbor scores across the heads. -/
noncomputable def computeAttention (att : Attention) (queryEmb : EmbRec)
    (keyEmbs : List EmbRec) : List ℝ :=
  let allScores := (List.range att.numHeads).map (headScores att queryEmb keyEmbs)
  (List.range keyEmbs.length).map fun i =>
    ((List.range att.numHeads).map fun head =>
      (allScores.getD head []).getD i 0).sum / (att.numHeads : ℝ)

/-- `HyperGraphEmbedding.fromMultipleEmbeddings`: weighted sum of the vectors
(dimension taken from the first embedding), then normalization to unit length,
skipped when the norm is 0.  The source throws on an empty list; the `[]`
branch is unreachable at the `propagate` call site, which always passes the
current embedding first. -/
noncomputable def fromMultipleEmbeddings (embeddings : List EmbRec) (weights : List ℝ) : EmbRec :=
  match embeddings with
  | [] => { vector := [], dimension := 0, system := none }
  | first :: _ =>
    let dim := first.dimension
    let summed := (List.range dim).map fun j =>
      (List.zipWith (fun e w => e.vector.getD j 0 * w) embeddings weights).sum
    let norm := Real.sqrt ((summed.map fun x => x * x).sum)
    let vec := if norm > 0 then summed.map (fun x => x / norm) else summed
    { vector := vec, dimension := dim, system := none }

/-- A stored hypergraph node: `{ system, type, embedding }`. -/
structure HNode where
  system : String
  type : String
  embedding : EmbRec

/-- A `HyperEdge`: ordered node keys, relation type, weight, metadata. -/
structure HEdge where
  id : String
  nodes : List String
  type : String
  weight : ℝ
  metadata : String

/-- `HyperGraphNeuralNetwork` state. -/
structure HGNN where
  dimension : Nat
  nodes : List (String × HNode)
  hyperEdges : List (String × HEdge)
  attention : Attention

/-- The `HyperGraphNeuralNetwork` constructor (4 attention heads). -/
noncomputable def mkHGNN (dimension : Nat) (rand : Nat → ℝ) : HGNN :=
  { dimension := dimension, nodes := [], hyperEdges := [],
    attention := mkAttention dimension 4 rand }

/-- `HyperGraphNeuralNetwork.addNode`: store the node with the `system` key
spread into its embedding. -/
def HGNN.addNode (g : HGNN) (nodeId system type : String) (embedding : EmbRec) : HGNN :=
  let nd : HNode := { system := system, type := type, embedding := { embedding with system := some system } }
  { g with nodes := mapSet g.nodes nodeId nd }

/-- `HyperGraphNeuralNetwork.addHyperEdge`: validate every node key before any
mutation; throw `Node not found` on the first missing key, leaving the state
exactly as received; otherwise insert the new edge.  The pair returns the
thrown-or-created edge alongside the post state. -/
def HGNN.addHyperEdge (g : HGNN) (edgeId : String) (nodeIds : List String)
    (type : String) (weight : ℝ) (metadata : String) : Except String HEdge × HGNN :=
  match nodeIds.find? (fun nodeId => !(hasKey g.nodes nodeId)) with
  | some missing => (.error ("Node not found: " ++ missing), g)
  | none =>
    let he : HEdge := { id := edgeId, nodes := nodeIds, type := type, weight := weight, metadata := metadata }
    (.ok he, { g with hyperEdges := mapSet g.hyperEdges edgeId he })

/-- Neighbor collection of one `propagate` round: walk every relevant edge's
node list, adding unvisited ids to the visited list (also ids with no stored
node, as the source does) and collecting the embeddings of stored nodes. -/
def collectNeighbors (g : HGNN) (relevantEdges : List HEdge) (visited : List String) :
    List String × List EmbRec :=
  relevantEdges.foldl (fun acc edge =>
    edge.nodes.foldl (fun acc nodeId =>
      if nodeId ∈ acc.1 then acc
      else
        match mapGet g.nodes nodeId with
        | some nd => (nodeId :: acc.1, acc.2 ++ [nd.embedding])
        | none => (nodeId :: acc.1, acc.2)) acc) (visited, [])

/-- The hop loop of `propagate`: break when no hyperedge touches a visited
node, skip aggregation when no new neighbor embedding was collected, otherwise
fold the neighbors into the aggregate with attention weights `0.5 * s` against
`0.5` for the current aggregate.  Returns the final embedding, the visited
list, and the count of rounds not cut short by the break (instrumentation,
compared against the reported `hopsCompleted`). -/
noncomputable def propagateLoop (g : HGNN) : Nat → EmbRec → List String → EmbRec × List String × Nat
  | 0, emb, visited => (emb, visited, 0)
  | hops + 1, emb, visited =>
    let relevantEdges := (g.hyperEdges.map (·.2)).filter fun e => e.nodes.any (· ∈ visited)
    if relevantEdges.isEmpty then (emb, visited, 0)
    else
      let collected := collectNeighbors g relevantEdges visited
      if collected.2.isEmpty then
        let rest := propagateLoop g hops emb collected.1
        (rest.1, rest.2.1, rest.2.2 + 1)
      else
        let attentionScores := computeAttention g.attention emb collected.2
        let updated := fromMultipleEmbeddings (emb :: collected.2)
          (0.5 :: attentionScores.map fun s => 0.5 * s)
        let rest := propagateLoop g hops updated collected.1
        (rest.1, rest.2.1, rest.2.2 + 1)

/-- The record returned by `propagate`. -/
structure PropagateResult where
  nodeId : String
  embedding : EmbRec
  hopsCompleted : Nat
  nodesVisited : Nat

/-- `HyperGraphNeuralNetwork.propagate`: throw when the target node is missing;
otherwise run the hop loop and report `hopsCompleted := hops` (the requested
count, regardless of the break) and the number of distinct visited nodes
including the source. -/
noncomputable def HGNN.propagate (g : HGNN) (targetNodeId : String) (hops : Nat) :
    Except String PropagateResult :=
  match mapGet g.nodes targetNodeId with
  | none => .error ("Target node not found: " ++ targetNodeId)
  | some target =>
    let r := propagateLoop g hops target.embedding [targetNodeId]
    .ok { nodeId := targetNodeId, embedding := r.1, hopsCompleted := hops, nodesVisited := r.2.1.length }

/-- Number of rounds of `propagate`'s loop actually performed (the instrumented
counter of `propagateLoop`): 0 whenever the no-relevant-edges break fires on
the first round. -/
noncomputable def HGNN.roundsPerformed (g : HGNN) (targetNodeId : String) (hops : Nat) :
    Except String Nat :=
  match mapGet g.nodes targetNodeId with
  | none => .error ("Target node not found: " ++ targetNodeId)
  | some target => .ok (propagateLoop g hops target.embedding [targetNodeId]).2.2

/-- An entry of the list returned by `findCrossDomainPaths`. -/
structure PathResult where
  path : List String
  length : Nat
  systems : List String
deriving DecidableEq, Repr

/-- One BFS expansion of `findCrossDomainPaths`: for every hyperedge containing
the path's last node, push every extension `path ++ [neighbor]` by a neighbor
not already on the path, deduplicated by the `-`-joined path key. -/
def expandPaths (g : HGNN) (path : List String) (currentNode : String)
    (queue : List (List String)) (visitedKeys : List String) :
    List (List String) × List String :=
  (g.hyperEdges.map (·.2)).foldl (fun acc edge =>
    if currentNode ∈ edge.nodes then
      edge.nodes.foldl (fun acc neighborId =>
        if neighborId ≠ currentNode ∧ neighborId ∉ path then
          let newPath := path ++ [neighborId]
          let pathKey := String.intercalate "-" newPath
          if pathKey ∈ acc.2 then acc
          else (acc.1 ++ [newPath], pathKey :: acc.2)
        else acc) acc
    else acc) (queue, visitedKeys)

/-- The BFS loop of `findCrossDomainPaths`, fueled: the source's `while` loop
terminates because the visited path-key set is finite; sufficient fuel yields
its value and the safety properties hold at every fuel.  A popped path is
collected when it ends at the target, dropped when it already has `maxHops`
nodes, and expanded otherwise. -/
def bfsLoop (g : HGNN) (targetNodeId : String) (maxHops : Nat) :
    Nat → List (List String) → List String → List (List String) → List (List String)
  | 0 => fun _ _ acc => acc
  | fuel + 1 => fun queue visitedKeys acc =>
    match queue with
    | [] => acc
    | path :: rest =>
      let currentNode := path.getLastD ""
      if currentNode = targetNodeId then
        bfsLoop g targetNodeId maxHops fuel rest visitedKeys (acc ++ [path])
      else if maxHops ≤ path.length then
        bfsLoop g targetNodeId maxHops fuel rest visitedKeys acc
      else
        let ex := expandPaths g path currentNode rest visitedKeys
        bfsLoop g targetNodeId maxHops fuel ex.1 ex.2 acc

/-- `HyperGraphNeuralNetwork.findCrossDomainPaths` (fueled BFS from the
singleton source path). -/
def HGNN.findCrossDomainPaths (g : HGNN) (sourceNodeId targetNodeId : String)
    (maxHops fuel : Nat) : List PathResult :=
  (bfsLoop g targetNodeId maxHops fuel [[sourceNodeId]] [] []).map fun path =>
    { path := path, length := path.length - 1,
      systems := path.filterMap fun nodeId => (mapGet g.nodes nodeId).map (·.system) }

/-- The record returned by `Hyperd.crossDomainQuery`. -/
structure QueryResult where
  sourceSystem : String
  sourceEntity : String
  targetSystem : String
  pathsFound : Nat
  paths : List PathResult

/-- `Hyperd.crossDomainQuery` over a given index state: search a path to every
node of the target system, report the total count and the first 10 paths. -/
def crossDomainQuery (g : HGNN) (sourceSystem sourceEntity targetSystem : String)
    (maxHops fuel : Nat) : QueryResult :=
  let sourceNodeId := sourceSystem ++ ":" ++ sourceEntity
  let targetNodes := (g.nodes.filter fun p => p.2.system = targetSystem).map (·.1)
  let paths := targetNodes.foldl
    (fun acc t => acc ++ HGNN.findCrossDomainPaths g sourceNodeId t maxHops fuel) []
  { sourceSystem := sourceSystem, sourceEntity := sourceEntity,
    targetSystem := targetSystem, pathsFound := paths.length, paths := paths.take 10 }

/-- JavaScript number results of the division in `getNetworkInsights`:
`0 / 0` is `NaN`, `x / 0` is signed infinity, anything else is finite. -/
inductive JsNum where
  | nan : JsNum
  | posInf : JsNum
  | negInf : JsNum
  | val : ℚ → JsNum
deriving DecidableEq, Repr

/-- IEEE-754 double division for the finite operands arising here. -/
def jsDiv (a b : ℚ) : JsNum :=
  if b = 0 then (if a = 0 then .nan else if a > 0 then .posInf else .negInf)
  else .val (a / b)

/-- Bump a string-keyed counter (`obj[k] = (obj[k] || 0) + 1`). -/
def bumpCount (m : List (String × Nat)) (k : String) : List (String × Nat) :=
  mapSet m k ((mapGet m k).getD 0 + 1)

/-- The record returned by `getNetworkInsights`. -/
structure NetworkInsights where
  totalNodes : Nat
  totalHyperEdges : Nat
  systemDistribution : List (String × Nat)
  edgeTypeDistribution : List (String × Nat)
  avgNodesPerEdge : JsNum
deriving DecidableEq, Repr

/-- `HyperGraphNeuralNetwork.getNetworkInsights`: node/edge totals, per-system
and per-type counts, and the unguarded mean `sum of edge arities / edge count`. -/
def HGNN.getNetworkInsights (g : HGNN) : NetworkInsights :=
  { totalNodes := g.nodes.length
    totalHyperEdges := g.hyperEdges.length
    systemDistribution := g.nodes.foldl (fun m p => bumpCount m p.2.system) []
    edgeTypeDistribution := g.hyperEdges.foldl (fun m p => bumpCount m p.2.type) []
    avgNodesPerEdge := jsDiv ((g.hyperEdges.map fun p => ((p.2.nodes.length : ℚ))).sum) ((g.hyperEdges.length : ℚ)) }

/-! ## Concrete index states for witnesses and counterexamples -/

/-- A zero embedding of dimension 2. -/
noncomputable def embZ : EmbRec := { vector := [0, 0], dimension := 2, system := none }

/-- Spec scenario 3: nodes `scm:s1`, `crm:c1`, `mrp:m1` joined by the single
hyperedge `e1`. -/
noncomputable def gScen : HGNN :=
  (HGNN.addHyperEdge
    (HGNN.addNode (HGNN.addNode (HGNN.addNode (mkHGNN 2 (fun _ => 0))
      "scm:s1" "scm" "entity" embZ) "crm:c1" "crm" "entity" embZ) "mrp:m1" "mrp" "entity" embZ)
    "e1" ["scm:s1", "crm:c1", "mrp:m1"] "supply_chain_integration" (9/10) "meta").2

/-- An index holding the single node `a` and no hyperedges. -/
noncomputable def gSolo : HGNN :=
  HGNN.addNode (mkHGNN 2 (fun _ => 0)) "a" "scm" "entity" embZ

/-- The record `propagate gSolo "a" 2` returns: the loop breaks on round 0
(no hyperedges) yet `hopsCompleted` reports the requested 2. -/
noncomputable def propResSolo : PropagateResult :=
  { nodeId := "a", embedding := { vector := [0, 0], dimension := 2, system := some "scm" },
    hopsCompleted := 2, nodesVisited := 1 }

/-! ## Claim C4 -/

/-- C4: `addHyperEdge` with any node key absent from the index fails with the
`Node not found` error and leaves the index exactly as it was: the node map,
the edge map, and hence both counts are unchanged (validation precedes any
mutation; no partial edge is stored). -/
theorem claim_C4_addHyperEdge_atomic (g : HGNN) (edgeId : String)
    (nodeIds : List String) (type : String) (weight : ℝ) (metadata : String)
    (h : ∃ nodeId ∈ nodeIds, hasKey g.nodes nodeId = false) :
    (∃ missing ∈ nodeIds, hasKey g.nodes missing = false ∧
      (HGNN.addHyperEdge g edgeId nodeIds type weight metadata).1 =
        .error ("Node not found: " ++ missing)) ∧
    (HGNN.addHyperEdge g edgeId nodeIds type weight metadata).2 = g ∧
    (HGNN.addHyperEdge g edgeId nodeIds type weight metadata).2.nodes.length = g.nodes.length ∧
    (HGNN.addHyperEdge g edgeId nodeIds type weight metadata).2.hyperEdges.length =
      g.hyperEdges.length := by
  obtain ⟨nodeId, hmem, hkey⟩ := h
  cases hf : nodeIds.find? (fun nodeId => !(hasKey g.nodes nodeId)) with
  | none =>
    exfalso
    have := List.find?_eq_none.mp hf nodeId hmem
    simp [hkey] at this
  | some missing =>
    have hp := List.find?_some hf
    have hmm := List.mem_of_find?_eq_some hf
    have hkeym : hasKey g.nodes missing = false := by simpa using hp
    exact ⟨⟨missing, hmm, hkeym, by simp [HGNN.addHyperEdge, hf]⟩,
      by simp [HGNN.addHyperEdge, hf], by simp [HGNN.addHyperEdge, hf],
      by simp [HGNN.addHyperEdge, hf]⟩

theorem claim_C4_witness :
    ((∃ nodeId ∈ (["scm:s1", "nope"] : List String), hasKey gScen.nodes nodeId = false) ∧
      (∃ missing ∈ (["scm:s1", "nope"] : List String), hasKey gScen.nodes missing = false ∧
        (HGNN.addHyperEdge gScen "e2" ["scm:s1", "nope"] "t" 1 "m").1 =
          .error ("Node not found: " ++ missing)) ∧
      (HGNN.addHyperEdge gScen "e2" ["scm:s1", "nope"] "t" 1 "m").2 = gScen ∧
      (HGNN.addHyperEdge gScen "e2" ["scm:s1", "nope"] "t" 1 "m").2.nodes.length =
        gScen.nodes.length ∧
      (HGNN.addHyperEdge gScen "e2" ["scm:s1", "nope"] "t" 1 "m").2.hyperEdges.length =
        gScen.hyperEdges.length) :=
  ⟨⟨"nope", by decide, rfl⟩,
    claim_C4_addHyperEdge_atomic gScen "e2" ["scm:s1", "nope"] "t" 1 "m"
      ⟨"nope", by decide, rfl⟩⟩

/-! ## Claim C7 -/

theorem claim_C7_counterexample :
    (HGNN.propagate gSolo "a" 2).map (·.hopsCompleted) = .ok 2 ∧
    HGNN.roundsPerformed gSolo "a" 2 = .ok 0 ∧ (2 : Nat) ≠ 0 :=
  ⟨rfl, rfl, by decide⟩

/-- C7 amended: `propagate` breaks its loop early when no hyperedge touches the
visited set, but its result's `hopsCompleted` field always reports the
requested hop count, not the number of rounds actually performed;
`nodesVisited` reports the distinct nodes visited including the source, and on
the scenario index (three nodes joined by one hyperedge) `propagate "scm:s1" 1`
reports `nodesVisited = 3`. -/
theorem claim_C7_propagate_reporting (g : HGNN) (src : String) (hops : Nat)
    (r : PropagateResult) (h : HGNN.propagate g src hops = .ok r) :
    r.hopsCompleted = hops ∧
    ((HGNN.propagate gScen "scm:s1" 1).map (·.nodesVisited) = .ok 3 ∧
      (HGNN.propagate gScen "scm:s1" 1).map (·.hopsCompleted) = .ok 1) := by
  refine ⟨?_, rfl, rfl⟩
  unfold HGNN.propagate at h
  cases hm : mapGet g.nodes src with
  | none => rw [hm] at h; cases h
  | some target => rw [hm] at h; cases h; rfl

theorem claim_C7_witness :
    (HGNN.propagate gSolo "a" 2 = .ok propResSolo) ∧
    (propResSolo.hopsCompleted = 2 ∧
      ((HGNN.propagate gScen "scm:s1" 1).map (·.nodesVisited) = .ok 3 ∧
        (HGNN.propagate gScen "scm:s1" 1).map (·.hopsCompleted) = .ok 1)) :=
  ⟨rfl, claim_C7_propagate_reporting gSolo "a" 2 propResSolo rfl⟩

/-! ## Claim C10 -/

/-- C10: with at least one stored hyperedge, `avgNodesPerEdge` equals the sum
of the per-edge node-key counts divided by the edge count; with zero hyperedges
the division is the unguarded `0 / 0`, reported as NaN rather than a numeric
mean or an error. -/
theorem claim_C10_avg_nodes_per_edge (g : HGNN) :
    (g.hyperEdges ≠ [] →
      (HGNN.getNetworkInsights g).avgNodesPerEdge =
        .val ((g.hyperEdges.map fun p => ((p.2.nodes.length : ℚ))).sum / (g.hyperEdges.length : ℚ))) ∧
    (g.hyperEdges = [] → (HGNN.getNetworkInsights g).avgNodesPerEdge = .nan) := by
  constructor
  · intro hne
    have hlen : ((g.hyperEdges.length : ℚ)) ≠ 0 := by
      have : g.hyperEdges.length ≠ 0 := fun hc => hne (List.length_eq_zero.mp hc)
      exact_mod_cast this
    simp [HGNN.getNetworkInsights, jsDiv, hlen]
  · intro he
    simp [HGNN.getNetworkInsights, jsDiv, he]

theorem claim_C10_witness :
    (gScen.hyperEdges ≠ [] ∧
      (HGNN.getNetworkInsights gScen).avgNodesPerEdge =
        .val ((gScen.hyperEdges.map fun p => ((p.2.nodes.length : ℚ))).sum /
          (gScen.hyperEdges.length : ℚ))) ∧
    (gSolo.hyperEdges = [] ∧ (HGNN.getNetworkInsights gSolo).avgNodesPerEdge = .nan) := by
  have hne : gScen.hyperEdges ≠ [] := by
    have h1 : gScen.hyperEdges.length = 1 := rfl
    exact fun hc => by rw [hc] at h1; cases h1
  have hso : gSolo.hyperEdges = [] := rfl
  exact ⟨⟨hne, (claim_C10_avg_nodes_per_edge gScen).1 hne⟩,
    ⟨hso, (claim_C10_avg_nodes_per_edge gSolo).2 hso⟩⟩

/-! ## Claim C6: BFS path-safety invariants -/

/-- Invariant of every path living in the BFS queue: non-empty, no repeated
node key, and at most `maxHops + 1` nodes (the initial singleton, and
extensions only of paths shorter than `maxHops` nodes). -/
def QueuePathOk (maxHops : Nat) (p : List String) : Prop :=
  p ≠ [] ∧ p.Nodup ∧ p.length ≤ maxHops + 1

/-- Invariant of every collected path: a queue path ending at the target. -/
def AccPathOk (maxHops : Nat) (target : String) (p : List String) : Prop :=
  QueuePathOk maxHops p ∧ p.getLast? = some target

theorem nodup_snoc {l : List String} {a : String} (h : l.Nodup) (ha : a ∉ l) :
    (l ++ [a]).Nodup := by
  rw [List.nodup_append]
  exact ⟨h, List.nodup_singleton a,
    fun x hx hxa => ha ((List.mem_singleton.mp hxa) ▸ hx)⟩

theorem getLast?_eq_some_getLastD :
    ∀ (l : List String) (d : String), l ≠ [] → l.getLast? = some (l.getLastD d)
  | [x], _, _ => rfl
  | x :: y :: t, d, _ => by
    rw [List.getLast?_cons_cons]
    exact getLast?_eq_some_getLastD (y :: t) d (by simp)

theorem foldl_fst_all {α β γ : Type} (P : γ → Prop) (f : List γ × β → α → List γ × β)
    (hf : ∀ acc x, (∀ q ∈ acc.1, P q) → ∀ q ∈ (f acc x).1, P q) :
    ∀ (l : List α) (init : List γ × β), (∀ q ∈ init.1, P q) →
      ∀ q ∈ (l.foldl f init).1, P q := by
  intro l
  induction l with
  | nil => intro init hinit; exact hinit
  | cons x xs ih => intro init hinit; exact ih (f init x) (hf init x hinit)

theorem expandPaths_sound (g : HGNN) (path : List String) (currentNode : String)
    (queue : List (List String)) (visitedKeys : List String) (maxHops : Nat)
    (hq : ∀ q ∈ queue, QueuePathOk maxHops q)
    (hnd : path.Nodup) (hlen : path.length < maxHops) :
    ∀ q ∈ (expandPaths g path currentNode queue visitedKeys).1, QueuePathOk maxHops q := by
  unfold expandPaths
  refine foldl_fst_all (QueuePathOk maxHops) _ ?_ _ (queue, visitedKeys) hq
  intro acc edge hacc
  by_cases hcur : currentNode ∈ edge.nodes
  · rw [if_pos hcur]
    refine foldl_fst_all (QueuePathOk maxHops) _ ?_ _ acc hacc
    intro acc₁ neighborId hacc₁
    by_cases hcond : neighborId ≠ currentNode ∧ neighborId ∉ path
    · rw [if_pos hcond]
      by_cases hkey : String.intercalate "-" (path ++ [neighborId]) ∈ acc₁.2
      · rw [if_pos hkey]; exact hacc₁
      · rw [if_neg hkey]
        intro q hqmem
        rcases List.mem_append.mp hqmem with hmem | hmem
        · exact hacc₁ q hmem
        · have hqeq : q = path ++ [neighborId] := by simpa using hmem
          subst hqeq
          refine ⟨by simp, nodup_snoc hnd hcond.2, ?_⟩
          simp only [List.length_append, List.length_singleton]
          omega
    · rw [if_neg hcond]; exact hacc₁
  · rw [if_neg hcur]; exact hacc

theorem bfsLoop_sound (g : HGNN) (target : String) (maxHops : Nat) :
    ∀ (fuel : Nat) (queue : List (List String)) (visitedKeys : List String)
      (acc : List (List String)),
      (∀ q ∈ queue, QueuePathOk maxHops q) →
      (∀ p ∈ acc, AccPathOk maxHops target p) →
      ∀ p ∈ bfsLoop g target maxHops fuel queue visitedKeys acc,
        AccPathOk maxHops target p := by
  intro fuel
  induction fuel with
  | zero => intro queue vk acc _ hacc p hp; exact hacc p hp
  | succ fuel ih =>
    intro queue vk acc hq hacc p hp
    cases queue with
    | nil => exact hacc p hp
    | cons path rest =>
      have hqpath : QueuePathOk maxHops path := hq path (List.mem_cons_self path rest)
      have hqrest : ∀ q ∈ rest, QueuePathOk maxHops q :=
        fun q hq₁ => hq q (List.mem_cons_of_mem path hq₁)
      simp only [bfsLoop] at hp
      by_cases htgt : path.getLastD "" = target
      · rw [if_pos htgt] at hp
        refine ih rest vk (acc ++ [path]) hqrest ?_ p hp
        intro p₁ hp₁
        rcases List.mem_append.mp hp₁ with hmem | hmem
        · exact hacc p₁ hmem
        · have hpeq : p₁ = path := by simpa using hmem
          subst hpeq
          exact ⟨hqpath, htgt ▸ getLast?_eq_some_getLastD p₁ "" hqpath.1⟩
      · rw [if_neg htgt] at hp
        by_cases hmax : maxHops ≤ path.length
        · rw [if_pos hmax] at hp
          exact ih rest vk acc hqrest hacc p hp
        · rw [if_neg hmax] at hp
          refine ih _ _ acc ?_ hacc p hp
          exact expandPaths_sound g path (path.getLastD "") rest vk maxHops hqrest
            hqpath.2.1 (by omega)

theorem mem_foldl_append {α β : Type} (f : β → List α) :
    ∀ (l : List β) (init : List α) (x : α),
      x ∈ l.foldl (fun acc t => acc ++ f t) init → x ∈ init ∨ ∃ t ∈ l, x ∈ f t := by
  intro l
  induction l with
  | nil => intro init x hx; exact .inl hx
  | cons t ts ih =>
    intro init x hx
    rcases ih (init ++ f t) x hx with h | h
    · rcases List.mem_append.mp h with h | h
      · exact .inl h
      · exact .inr ⟨t, List.mem_cons_self t ts, h⟩
    · obtain ⟨u, hu, hxu⟩ := h
      exact .inr ⟨u, List.mem_cons_of_mem t hu, hxu⟩

theorem mapGet_of_mem_nodup {α : Type} {m : List (String × α)}
    (hnd : (m.map Prod.fst).Nodup) {k : String} {v : α}
    (hmem : (k, v) ∈ m) : mapGet m k = some v := by
  induction m with
  | nil => cases hmem
  | cons p rest ih =>
    have hnd' : (rest.map Prod.fst).Nodup := (List.nodup_cons.mp (by simpa using hnd)).2
    rcases List.mem_cons.mp hmem with h | h
    · rw [← h]
      simp [mapGet, List.find?]
    · have hpk : (p.1 = k) = False := by
        simp only [eq_iff_iff, iff_false]
        intro hc
        have hkrest : k ∈ rest.map Prod.fst :=
          hc ▸ (List.mem_map.mpr ⟨(k, v), h, hc ▸ rfl⟩)
        have : p.1 ∉ rest.map Prod.fst := (List.nodup_cons.mp (by simpa using hnd)).1
        exact this (hc ▸ hkrest)
      have : mapGet (p :: rest) k = mapGet rest k := by
        unfold mapGet
        rw [List.find?_cons_of_neg]
        simp [hpk]
      rw [this]
      exact ih hnd' h

/-- C6: every path returned by the cross-domain query has at most `maxHops`
edges (its reported `length` is the node count minus one), repeats no node key,
and ends at a node whose system equals the target system. -/
theorem claim_C6_path_properties (g : HGNN)
    (hnd : (g.nodes.map Prod.fst).Nodup)
    (sourceSystem sourceEntity targetSystem : String) (maxHops fuel : Nat)
    (p : PathResult)
    (hp : p ∈ (crossDomainQuery g sourceSystem sourceEntity targetSystem maxHops fuel).paths) :
    p.length = p.path.length - 1 ∧ p.length ≤ maxHops ∧ p.path ≠ [] ∧ p.path.Nodup ∧
    ∃ lastId nd, p.path.getLast? = some lastId ∧ mapGet g.nodes lastId = some nd ∧
      nd.system = targetSystem := by
  simp only [crossDomainQuery] at hp
  have hp' := List.mem_of_mem_take hp
  rcases mem_foldl_append _ _ _ _ hp' with h | h
  · cases h
  · obtain ⟨t, ht, hpt⟩ := h
    obtain ⟨pair, hpair, hpt1⟩ := List.mem_map.mp ht
    have hpairm : pair ∈ g.nodes := List.mem_of_mem_filter hpair
    have hpsys : pair.2.system = targetSystem := by
      have := List.of_mem_filter hpair
      simpa using this
    unfold HGNN.findCrossDomainPaths at hpt
    obtain ⟨path, hpath, hpeq⟩ := List.mem_map.mp hpt
    have hQ : ∀ q ∈ [[sourceSystem ++ ":" ++ sourceEntity]], QueuePathOk maxHops q := by
      intro q hq
      have : q = [sourceSystem ++ ":" ++ sourceEntity] := by simpa using hq
      subst this
      exact ⟨by simp, List.nodup_singleton _, by simp⟩
    have hA := bfsLoop_sound g t maxHops fuel _ [] [] hQ (fun p₁ hp₁ => absurd hp₁ (List.not_mem_nil p₁)) path hpath
    obtain ⟨⟨hne, hnd', hlen⟩, hlast⟩ := hA
    subst hpeq
    refine ⟨rfl, by simp only []; omega, hne, hnd', t, pair.2, hlast, ?_, hpsys⟩
    rw [← hpt1]
    exact mapGet_of_mem_nodup hnd (by simpa using hpairm)

/-- The path result of scenario 4: `findPaths("crm:c1", "mrp", 2)` yields the
single path `[crm:c1, mrp:m1]` of length 1. -/
def pResScen : PathResult :=
  { path := ["crm:c1", "mrp:m1"], length := 1, systems := ["crm", "mrp"] }

theorem claim_C6_witness :
    ((gScen.nodes.map Prod.fst).Nodup ∧
      pResScen ∈ (crossDomainQuery gScen "crm" "c1" "mrp" 2 20).paths) ∧
    (pResScen.length = pResScen.path.length - 1 ∧ pResScen.length ≤ 2 ∧
      pResScen.path ≠ [] ∧ pResScen.path.Nodup ∧
      ∃ lastId nd, pResScen.path.getLast? = some lastId ∧
        mapGet gScen.nodes lastId = some nd ∧ nd.system = "mrp") := by
  have hmem : pResScen ∈ (crossDomainQuery gScen "crm" "c1" "mrp" 2 20).paths := by
    rw [show (crossDomainQuery gScen "crm" "c1" "mrp" 2 20).paths = [pResScen] from rfl]
    exact List.mem_singleton_self _
  exact ⟨⟨by decide, hmem⟩,
    claim_C6_path_properties gScen (by decide) "crm" "c1" "mrp" 2 20 pResScen hmem⟩

/-! ## Claim C5: attention weights are softmax-normalized -/

theorem list_sum_div (l : List ℝ) (c : ℝ) : (l.map (fun x => x / c)).sum = l.sum / c := by
  induction l with
  | nil => simp
  | cons x xs ih => simp [ih, add_div]

theorem softmax_length (l : List ℝ) : (softmax l).length = l.length := by
  simp [softmax]

theorem softmax_sum (l : List ℝ) (h : l ≠ []) : (softmax l).sum = 1 := by
  unfold softmax
  have hne : l.map (fun s => Real.exp (s - listMax l)) ≠ [] := by simpa using h
  have hpos : 0 < (l.map (fun s => Real.exp (s - listMax l))).sum := by
    refine List.sum_pos _ ?_ hne
    intro x hx
    obtain ⟨s, _, rfl⟩ := List.mem_map.mp hx
    exact Real.exp_pos _
  simp only []
  rw [list_sum_div]
  exact div_self (ne_of_gt hpos)

theorem softmax_singleton (s : ℝ) : softmax [s] = [1] := by
  unfold softmax listMax
  simp

theorem getD_map_range {α : Type} (f : ℕ → α) {H h : ℕ} (hh : h < H) (d : α) :
    ((List.range H).map f).getD h d = f h := by
  rw [show ((List.range H).map f).getD h d = (((List.range H).map f).get? h).getD d from rfl]
  rw [List.get?_map, List.get?_range hh]
  rfl

theorem sum_getD_range_eq_sum (l : List ℝ) :
    ∑ i in Finset.range l.length, l.getD i 0 = l.sum := by
  induction l with
  | nil => simp
  | cons x xs ih =>
    rw [List.length_cons, Finset.sum_range_succ']
    simp only [List.getD_cons_succ, List.getD_cons_zero]
    rw [ih, List.sum_cons, add_comm]

theorem listSum_range (f : ℕ → ℝ) (n : ℕ) :
    ((List.range n).map f).sum = ∑ i in Finset.range n, f i := by
  induction n with
  | zero => simp
  | succ n ih =>
    rw [List.range_succ, List.map_append, List.sum_append, Finset.sum_range_succ, ih]
    simp

theorem headScores_length (att : Attention) (queryEmb : EmbRec) (keyEmbs : List EmbRec)
    (head : Nat) : (headScores att queryEmb keyEmbs head).length = keyEmbs.length := by
  unfold headScores
  rw [softmax_length, List.length_map]

theorem headScores_sum (att : Attention) (queryEmb : EmbRec) (keyEmbs : List EmbRec)
    (head : Nat) (hk : keyEmbs ≠ []) : (headScores att queryEmb keyEmbs head).sum = 1 := by
  unfold headScores
  exact softmax_sum _ (by simpa using hk)

theorem computeAttention_length (att : Attention) (queryEmb : EmbRec)
    (keyEmbs : List EmbRec) :
    (computeAttention att queryEmb keyEmbs).length = keyEmbs.length := by
  simp [computeAttention]

theorem computeAttention_sum (att : Attention) (queryEmb : EmbRec)
    (keyEmbs : List EmbRec) (hH : 0 < att.numHeads) (hk : keyEmbs ≠ []) :
    (computeAttention att queryEmb keyEmbs).sum = 1 := by
  unfold computeAttention
  simp only []
  rw [show (fun i => ((List.range att.numHeads).map fun head =>
      ((((List.range att.numHeads).map (headScores att queryEmb keyEmbs))).getD head []).getD i 0).sum /
      (att.numHeads : ℝ)) = (fun x => x / (att.numHeads : ℝ)) ∘ (fun i =>
      ((List.range att.numHeads).map fun head =>
      ((((List.range att.numHeads).map (headScores att queryEmb keyEmbs))).getD head []).getD i 0).sum)
    from rfl]
  rw [← List.map_map, list_sum_div, listSum_range]
  have hinner : ∀ i ∈ Finset.range keyEmbs.length,
      ((List.range att.numHeads).map fun head =>
        ((((List.range att.numHeads).map (headScores att queryEmb keyEmbs))).getD head []).getD i 0).sum =
      ∑ h in Finset.range att.numHeads,
        ((((List.range att.numHeads).map (headScores att queryEmb keyEmbs))).getD h []).getD i 0 :=
    fun i _ => listSum_range _ _
  rw [Finset.sum_congr rfl hinner, Finset.sum_comm]
  have hhead : ∀ h ∈ Finset.range att.numHeads,
      ∑ i in Finset.range keyEmbs.length,
        ((((List.range att.numHeads).map (headScores att queryEmb keyEmbs))).getD h []).getD i 0 = 1 := by
    intro h hmem
    have hh : h < att.numHeads := Finset.mem_range.mp hmem
    rw [getD_map_range _ hh]
    rw [← headScores_length att queryEmb keyEmbs h, sum_getD_range_eq_sum]
    exact headScores_sum att queryEmb keyEmbs h hk
  rw [Finset.sum_congr rfl hhead]
  have hne : ((att.numHeads : ℝ)) ≠ 0 := ne_of_gt (by exact_mod_cast hH)
  simp [hne]

theorem computeAttention_single (att : Attention) (queryEmb k : EmbRec)
    (hH : 0 < att.numHeads) : computeAttention att queryEmb [k] = [1] := by
  unfold computeAttention
  simp only []
  rw [show List.range (([k] : List EmbRec)).length = [0] from rfl]
  simp only [List.map_cons, List.map_nil]
  have hmap : (List.range att.numHeads).map (fun head =>
      ((((List.range att.numHeads).map (headScores att queryEmb [k]))).getD head []).getD 0 0) =
      (List.range att.numHeads).map (fun _ => (1 : ℝ)) := by
    refine List.map_congr_left ?_
    intro h hmem
    have hh : h < att.numHeads := List.mem_range.mp hmem
    rw [getD_map_range _ hh]
    unfold headScores
    simp only [List.map_cons, List.map_nil]
    rw [softmax_singleton]
    rfl
  rw [hmap, listSum_range]
  have hne : ((att.numHeads : ℝ)) ≠ 0 := ne_of_gt (by exact_mod_cast hH)
  simp [hne]

/-- C5: for every non-empty neighbor list, `computeAttention` returns one
scalar per neighbor and the scalars sum to exactly 1 (so in particular to 1.0
within 1e-6); in the single-neighbor case the result is exactly `[1.0]`. -/
theorem claim_C5_weights_normalized (att : Attention) (queryEmb : EmbRec)
    (keyEmbs : List EmbRec) (hH : 0 < att.numHeads) (hk : keyEmbs ≠ []) :
    (computeAttention att queryEmb keyEmbs).length = keyEmbs.length ∧
    (computeAttention att queryEmb keyEmbs).sum = 1 ∧
    |(computeAttention att queryEmb keyEmbs).sum - 1| ≤ 1 / 1000000 ∧
    ∀ k, keyEmbs = [k] → computeAttention att queryEmb keyEmbs = [1] := by
  refine ⟨computeAttention_length att queryEmb keyEmbs,
    computeAttention_sum att queryEmb keyEmbs hH hk, ?_, ?_⟩
  · rw [computeAttention_sum att queryEmb keyEmbs hH hk]
    norm_num
  · intro k hkk
    subst hkk
    exact computeAttention_single att queryEmb k hH

/-- A fixed attention instance used by the C5 witness. -/
noncomputable def attTwoHeads : Attention :=
  { dimension := 1, numHeads := 2, attentionWeights := [[[0]], [[0]]] }

theorem claim_C5_witness :
    (0 < attTwoHeads.numHeads ∧ ([embZ, embZ] : List EmbRec) ≠ []) ∧
    ((computeAttention attTwoHeads embZ [embZ, embZ]).length = 2 ∧
      (computeAttention attTwoHeads embZ [embZ, embZ]).sum = 1 ∧
      |(computeAttention attTwoHeads embZ [embZ, embZ]).sum - 1| ≤ 1 / 1000000 ∧
      ∀ k, ([embZ, embZ] : List EmbRec) = [k] →
        computeAttention attTwoHeads embZ [embZ, embZ] = [1]) :=
  ⟨⟨by decide, by simp⟩,
    claim_C5_weights_normalized attTwoHeads embZ [embZ, embZ] (by decide) (by simp)⟩

/-! ## Claim C9: attention construction and determinism -/

/-- A dimension-1 query embedding. -/
noncomputable def qEmb : EmbRec := { vector := [1], dimension := 1, system := none }

/-- A dimension-1 neighbor embedding with value 0. -/
noncomputable def kEmbA : EmbRec := { vector := [0], dimension := 1, system := none }

/-- A dimension-1 neighbor embedding with value 100. -/
noncomputable def kEmbB : EmbRec := { vector := [100], dimension := 1, system := none }

theorem attentionEvalA :
    computeAttention (mkAttention 1 1 fun _ => 1/2) qEmb [kEmbA, kEmbB] = [1/2, 1/2] := by
  unfold computeAttention headScores mkAttention transform dotProduct softmax listMax qEmb kEmbA kEmbB
  norm_num [List.range_succ, Real.exp_zero]

theorem attentionEvalB :
    computeAttention (mkAttention 1 1 fun _ => 3/2) qEmb [kEmbA, kEmbB] =
    [Real.exp (-1) / (Real.exp (-1) + 1), 1 / (Real.exp (-1) + 1)] := by
  unfold computeAttention headScores mkAttention transform dotProduct softmax listMax qEmb kEmbA kEmbB
  norm_num [List.range_succ, Real.exp_zero]

theorem claim_C9_counterexample :
    computeAttention (mkAttention 1 1 fun _ => 1/2) qEmb [kEmbA, kEmbB] ≠
    computeAttention (mkAttention 1 1 fun _ => 3/2) qEmb [kEmbA, kEmbB] := by
  rw [attentionEvalA, attentionEvalB]
  intro h
  injection h with h1 _
  have hpos : (0 : ℝ) < Real.exp (-1) + 1 := by positivity
  have hlt : Real.exp (-1) < 1 := Real.exp_lt_one_iff.mpr (by norm_num)
  rw [div_eq_div_iff (by norm_num) (ne_of_gt hpos)] at h1
  linarith

/-- C9 amended: the attention constructor takes only a dimension and a head
count and draws its projection matrices from a hidden random source, so two
instances constructed with identical arguments can return different weight
lists (see the counterexample); however, given its stored matrices the module
is a deterministic weighting function: two instances agreeing on dimension,
head count, and projection matrices return identical weight lists for every
query and neighbor list. -/
theorem claim_C9_deterministic_given_weights (a b : Attention)
    (hw : a.attentionWeights = b.attentionWeights) (hd : a.dimension = b.dimension)
    (hh : a.numHeads = b.numHeads) (queryEmb : EmbRec) (keyEmbs : List EmbRec) :
    computeAttention a queryEmb keyEmbs = computeAttention b queryEmb keyEmbs := by
  cases a
  cases b
  cases hw
  cases hd
  cases hh
  rfl

theorem claim_C9_witness :
    ((mkAttention 1 1 fun _ => 1/2).attentionWeights =
        (mkAttention 1 1 fun _ => 1/2).attentionWeights ∧
      (mkAttention 1 1 fun _ => 1/2).dimension = (mkAttention 1 1 fun _ => 1/2).dimension ∧
      (mkAttention 1 1 fun _ => 1/2).numHeads = (mkAttention 1 1 fun _ => 1/2).numHeads) ∧
    computeAttention (mkAttention 1 1 fun _ => 1/2) qEmb [kEmbA, kEmbB] =
      computeAttention (mkAttention 1 1 fun _ => 1/2) qEmb [kEmbA, kEmbB] :=
  ⟨⟨rfl, rfl, rfl⟩,
    claim_C9_deterministic_given_weights (mkAttention 1 1 fun _ => 1/2)
      (mkAttention 1 1 fun _ => 1/2) rfl rfl rfl qEmb [kEmbA, kEmbB]⟩

end Wds
